import Mathlib

/-!
Shallow embedding of the service-supervision core of daemonproxy
(src/service.c) together with theorems checking the natural-language
specification against it.

Byte strings (C `strseg_t`) are modelled as `List Char`; machine integers
(`int64_t` timestamps, `pid_t`) as `Int`.  The signed 64-bit subtractions
`a - b > 0` in the source are modelled as exact integer comparisons: on any
input where the C subtraction does not overflow the two agree, and an
overflowing signed subtraction is undefined behaviour in the source.
External collaborators (wake clock, signal-event queue, fd registry,
controller pool) enter as explicit parameters or oracles.
-/

set_option autoImplicit false

namespace Daemonproxy

/-- NUL byte, the entry terminator of the packed variable buffer. -/
def nul : Char := Char.ofNat 0

/-- Tab byte, the separator of the `fds` and `triggers` lists. -/
def tab : Char := Char.ofNat 9

/-- Modelled from the spec: `NAME_BUF_SIZE` comes from config.h, which is not
in scope; the spec fixes only that names are 1..NAME_BUF_SIZE-1 bytes.  The
claims below depend only on the bound being at least 2. -/
def NAME_BUF_SIZE : Nat := 64

/-- Modelled from the spec: repeated calls to the external tokenizer
`strseg_tok_next` over a separator yield one token per separator occurrence
plus the final remainder, empty tokens included (the spec describes the
`fds` and `triggers` values as tab-separated token lists). -/
def splitSep (sep : Char) : List Char → List (List Char)
  | [] => [[]]
  | c :: rest =>
    if c = sep then [] :: splitSep sep rest
    else
      match splitSep sep rest with
      | t :: ts => (c :: t) :: ts
      | [] => [[c]]

/-- Scan of the packed variable buffer shared by `svc_get_var` and
`svc_set_var` (src/service.c:238-250 and 259-274): while the remaining
buffer is nonempty, take the next NUL-terminated token, split it at the
first `=` into key and value, and stop at the first token whose key equals
`name`.  Returns the consumed prefix, the old value, and the tail after the
matching entry.  A token with no `=` yields the whole token as key; its
value remainder (negative length in C, unreachable for well-formed buffers)
is modelled as the empty remainder. -/
def find_entry_go (name : List Char) : Nat → List Char → Option (List Char × List Char × List Char)
  | 0, _ => none
  | _ + 1, [] => none
  | fuel + 1, b :: bs =>
    let val := (b :: bs).takeWhile (fun c => c ≠ nul)
    let rest := ((b :: bs).dropWhile (fun c => c ≠ nul)).drop 1
    let key := val.takeWhile (fun c => c ≠ '=')
    let ov := (val.dropWhile (fun c => c ≠ '=')).drop 1
    if key = name then some ([], ov, rest)
    else
      match find_entry_go name fuel rest with
      | some (p, o, t) => some (val ++ nul :: p, o, t)
      | none => none

/-- Entry point of the buffer scan: each loop iteration consumes at least
one byte, so the buffer length bounds the iteration count and the fuel is
never exhausted. -/
def find_entry (name buf : List Char) : Option (List Char × List Char × List Char) :=
  find_entry_go name buf.length buf

/-- Get a named variable (src/service.c:238-250, `svc_get_var`): scan the
packed buffer and return the value of the first entry whose key is `name`. -/
def svc_get_var (vars name : List Char) : Option (List Char) :=
  (find_entry name vars).map (fun r => r.2.1)

/-- Size difference computed by `svc_set_var` (src/service.c:275-276):
growth (or shrink) in bytes of the packed buffer for the requested update. -/
def set_var_sizediff (vars name : List Char) (value : Option (List Char)) : Int :=
  match find_entry name vars, value with
  | some (_, ov, _), some v => (v.length : Int) - ov.length
  | some (_, ov, _), none => -((ov.length : Int) + 1 + name.length + 1)
  | none, some v => (name.length : Int) + 1 + v.length + 1
  | none, none => 0

/-- Set or delete a named variable (src/service.c:259-320, `svc_set_var`).
`cap` is the fixed slot capacity of a pool-backed record
(`svc_pool_size_each` minus the offset of the variable buffer); `none`
means heap-backed.  A growth that would exceed the pool capacity fails with
no change (the C returns false before mutating); the heap `realloc` is
modelled as succeeding.  On success the resulting buffer is: value replaced
in place, entry removed, entry appended, or the buffer untouched when
deleting an absent entry. -/
def svc_set_var (cap : Option Nat) (vars name : List Char) (value : Option (List Char)) :
    Option (List Char) :=
  let sd := set_var_sizediff vars name value
  let overflow : Bool :=
    decide (sd > 0) &&
      (match cap with
       | some c => decide ((vars.length : Int) + sd > (c : Int))
       | none => false)
  if overflow then none
  else
    match find_entry name vars, value with
    | some (p, _, t), some v => some (p ++ name ++ '=' :: v ++ nul :: t)
    | some (p, _, t), none => some (p ++ t)
    | none, some v => some (vars ++ name ++ '=' :: v ++ [nul])
    | none, none => some vars

/-- Encoding of an association list of variables as the packed
`name=value NUL` buffer layout described in the spec (§3 `vars`). -/
def encode_vars : List (List Char × List Char) → List Char
  | [] => []
  | (k, v) :: t => k ++ '=' :: v ++ nul :: encode_vars t

/-- Well-formedness of one variable entry: the key is nonempty and contains
neither NUL nor `=`; the value contains no NUL. -/
def entryOk (e : List Char × List Char) : Prop :=
  e.1 ≠ [] ∧ nul ∉ e.1 ∧ '=' ∉ e.1 ∧ nul ∉ e.2

/-- Well-formedness of an entry list: each entry well formed, keys distinct. -/
def entsOk (l : List (List Char × List Char)) : Prop :=
  (∀ e ∈ l, entryOk e) ∧ (l.map Prod.fst).Nodup

/-- Well-formedness of a packed variable buffer (spec §3 invariants): it is
the encoding of some well-formed entry list. -/
def vars_wf (vars : List Char) : Prop :=
  ∃ l, entsOk l ∧ vars = encode_vars l

/-- Validity of a variable key as assumed by the spec round-trip property. -/
def key_valid (k : List Char) : Prop := k ≠ [] ∧ nul ∉ k ∧ '=' ∉ k

/-- Name-syntax check (src/service.c:210-218, `svc_check_name`): length below
NAME_BUF_SIZE and every byte alphanumeric or `.` `_` `-`. -/
def name_char_ok (c : Char) : Bool :=
  (decide ('a' ≤ c) && decide (c ≤ 'z')) ||
  (decide ('A' ≤ c) && decide (c ≤ 'Z')) ||
  (decide ('0' ≤ c) && decide (c ≤ '9')) ||
  c = '.' || c = '_' || c = '-'

/-- Boolean result of `svc_check_name` (src/service.c:210-218). -/
def svc_check_name (name : List Char) : Bool :=
  decide (name.length < NAME_BUF_SIZE) && name.all name_char_ok

/-- Service states (src/service.c:14-18). -/
inductive SvcState
  | undef
  | down
  | start
  | up
  | reaped
deriving DecidableEq, Repr

/-- Service record (src/service.c:20-43, `struct service_s`).  The intrusive
list back-pointers (`active_prev_ptr`, `sigwake_prev_ptr`) are modelled as
the membership booleans `active` and `on_sigwake_list`; the embedded
red-black tree nodes as the membership booleans `in_name_index` and
`in_pid_index`.  `cap` is the pool-slot capacity of the variable buffer
(`none` for heap-backed records). -/
structure Svc where
  state : SvcState
  name : List Char
  vars : List Char
  cap : Option Nat
  pid : Int
  auto_restart : Bool
  sigwake : Bool
  uses_control_event : Bool
  uses_control_cmd : Bool
  uses_control_socket : Bool
  wait_status : Int
  start_time : Int
  reap_time : Int
  restart_interval : Int
  autostart_signals : List Int
  active : Bool
  on_sigwake_list : Bool
  in_name_index : Bool
  in_pid_index : Bool
deriving DecidableEq, Repr

/-- Wake clock shared with the main loop (spec §6): current time `now` and
loop wake deadline `next`. -/
structure Wake where
  now : Int
  next : Int
deriving DecidableEq, Repr

/-- Activate or deactivate a service (src/service.c:535-553,
`svc_set_active`): idempotent toggle of active-list membership. -/
def svc_set_active (svc : Svc) (activate : Bool) : Svc :=
  { svc with active := activate }

/-- Set the sigwake flag and sigwake-list membership (src/service.c:436-454,
`svc_set_sigwake`). -/
def svc_set_sigwake (svc : Svc) (sw : Bool) : Svc :=
  { svc with sigwake := sw, on_sigwake_list := sw }

/-- Check for a pending matching signal (src/service.c:456-467,
`svc_check_sigwake`): false unless the sigwake flag is set; the scan of the
external signal-event queue for a signal in `autostart_signals` is
abstracted as the oracle `sigMatch`. -/
def svc_check_sigwake (svc : Svc) (sigMatch : Bool) : Bool :=
  svc.sigwake && sigMatch

/-- Change the recorded child pid (src/service.c:833-844, `svc_change_pid`):
prune the pid-index node if a pid was set, store the new pid, and add the
node back iff the new pid is nonzero. -/
def svc_change_pid (svc : Svc) (pid : Int) : Svc :=
  let s1 := if svc.pid ≠ 0 then { svc with in_pid_index := false } else svc
  let s2 := { s1 with pid := pid }
  if pid ≠ 0 then { s2 with in_pid_index := true } else s2

/-- Start a service (src/service.c:469-491, `svc_handle_start`): fails
unless the state is DOWN or START; otherwise clamps `when` up to `now`,
biases a zero timestamp to 1, records it, clears pid and reap time, marks
the wait status unknown, activates, and advances the loop wake deadline to
`now`. -/
def svc_handle_start (svc : Svc) (wake : Wake) (when : Int) : Bool × Svc × Wake :=
  if svc.state ≠ SvcState.down ∧ svc.state ≠ SvcState.start then
    (false, svc, wake)
  else
    let w := if when - wake.now > 0 then when else wake.now
    let s1 := { svc with state := SvcState.start, start_time := if w = 0 then 1 else w }
    let s2 := svc_change_pid s1 0
    let s3 := { s2 with reap_time := 0, wait_status := -1 }
    let s4 := svc_set_active s3 true
    (true, s4, { wake with next := wake.now })

/-- Record a reaped child (src/service.c:510-520, `svc_handle_reaped`): only
a service in state UP reacts; it stores the wait status, moves to REAPED,
records the reap time, activates, and advances the loop wake deadline. -/
def svc_handle_reaped (svc : Svc) (wake : Wake) (wstat : Int) : Svc × Wake :=
  if svc.state = SvcState.up then
    ({ svc with wait_status := wstat, state := SvcState.reaped, reap_time := wake.now,
                active := true },
     { wake with next := wake.now })
  else (svc, wake)

/-- Modelled from the spec: `FORK_RETRY_DELAY` comes from config.h, which is
not in scope; the spec uses it only as a positive fixed-point delay
(§4.1 "reschedule start to now + FORK_RETRY_DELAY"). -/
def FORK_RETRY_DELAY : Int := 2 * 2 ^ 32

/-- Result of one `svc_run` call: the updated record and wake clock, plus
whether a fork was attempted. -/
structure RunRes where
  svc : Svc
  wake : Wake
  forked : Bool
deriving DecidableEq, Repr

/-- State machine for one service (src/service.c:587-639, `svc_run`).  The
`re_switch_state` goto is modelled as bounded recursion: the label is
re-entered at most twice in any execution (REAPED to DOWN or START, then a
failed fork re-enters START once), so fuel 4 is never exhausted.  Fork
(src/service.c:641-723, `svc_do_fork`) performs external I/O and is
abstracted by the oracle `forkOk` (did fork and any needed controller and
socketpair setup succeed) and `forkPid` (the child pid); on success the
parent registers the pid via `svc_change_pid` and the state moves to UP,
falling through to the UP case.  The UNDEF and default cases abort in the
source and are modelled as returning the state unchanged. -/
def svc_run_go : Nat → Svc → Wake → Bool → Int → Bool → Bool → RunRes
  | 0, svc, wake, _, _, _, forked => ⟨svc, wake, forked⟩
  | Nat.succ n, svc, wake, forkOk, forkPid, sigMatch, forked =>
    match svc.state with
    | SvcState.start =>
      if svc.start_time - wake.now > 0 then
        let wake1 := if svc.start_time - wake.next < 0 then { wake with next := svc.start_time }
                     else wake
        ⟨svc_set_active svc true, wake1, forked⟩
      else if forkOk then
        let s1 := svc_change_pid svc forkPid
        let s2 := { s1 with start_time := if wake.now = 0 then 1 else wake.now,
                            state := SvcState.up }
        ⟨svc_set_active s2 false, wake, true⟩
      else
        let r := svc_handle_start svc wake (wake.now + FORK_RETRY_DELAY)
        svc_run_go n r.2.1 r.2.2 forkOk forkPid sigMatch true
    | SvcState.up => ⟨svc_set_active svc false, wake, forked⟩
    | SvcState.reaped =>
      let s1 := { svc with state := SvcState.down }
      if s1.auto_restart || svc_check_sigwake s1 sigMatch then
        let when := if svc.reap_time - svc.start_time < svc.restart_interval then
                      wake.now + svc.restart_interval
                    else wake.now
        let r := svc_handle_start s1 wake when
        svc_run_go n r.2.1 r.2.2 forkOk forkPid sigMatch forked
      else svc_run_go n s1 wake forkOk forkPid sigMatch forked
    | SvcState.down => ⟨svc_set_active svc false, wake, forked⟩
    | SvcState.undef => ⟨svc, wake, forked⟩

/-- One call of the service state machine (src/service.c:587-639). -/
def svc_run (svc : Svc) (wake : Wake) (forkOk : Bool) (forkPid : Int) (sigMatch : Bool) :
    RunRes :=
  svc_run_go 4 svc wake forkOk forkPid sigMatch false

/-- Key of the `tags` variable. -/
def tags_key : List Char := "tags".toList

/-- Key of the `fds` variable. -/
def fds_key : List Char := "fds".toList

/-- Key of the `triggers` variable. -/
def triggers_key : List Char := "triggers".toList

/-- Default value of the `fds` variable, canonicalized to "unset"
(src/service.c:350 and 361-364). -/
def fds_default : List Char := "null\tnull\tnull".toList

/-- Literal fd name enabling the control-event handle. -/
def control_event_tok : List Char := "control.event".toList

/-- Literal fd name enabling the control-cmd handle. -/
def control_cmd_tok : List Char := "control.cmd".toList

/-- Literal fd name enabling the control-socket handle. -/
def control_socket_tok : List Char := "control.socket".toList

/-- Literal trigger token enabling auto-restart. -/
def always_tok : List Char := "always".toList

/-- Set the `tags` variable (src/service.c:331-333, `svc_set_tags`): an
empty value deletes the entry. -/
def svc_set_tags (svc : Svc) (new_tags : List Char) : Bool × Svc :=
  match svc_set_var svc.cap svc.vars tags_key
      (if new_tags.length ≤ 0 then none else some new_tags) with
  | none => (false, svc)
  | some b => (true, { svc with vars := b })

/-- Set the `args` variable (src/service.c:344-346, `svc_set_argv`). -/
def svc_set_argv (svc : Svc) (new_argv : List Char) : Bool × Svc :=
  match svc_set_var svc.cap svc.vars "args".toList
      (if new_argv.length ≤ 0 then none else some new_argv) with
  | none => (false, svc)
  | some b => (true, { svc with vars := b })

/-- Set the `fds` variable (src/service.c:357-382, `svc_set_fds`): the
default `null TAB null TAB null` is stored by deleting the entry (that
delete never fails); any other value is stored, failing with no change if
the variable pool is full.  On success the three `uses_control_*` flags are
recomputed by scanning the new value for the literal control tokens. -/
def svc_set_fds (svc : Svc) (new_fds : List Char) : Bool × Svc :=
  let stored : Option (List Char) :=
    if new_fds = fds_default then
      match svc_set_var svc.cap svc.vars fds_key none with
      | some b => some b
      | none => some svc.vars
    else svc_set_var svc.cap svc.vars fds_key (some new_fds)
  match stored with
  | none => (false, svc)
  | some b =>
    let toks := splitSep tab new_fds
    (true, { svc with vars := b,
                      uses_control_event := toks.contains control_event_tok,
                      uses_control_cmd := toks.contains control_cmd_tok,
                      uses_control_socket := toks.contains control_socket_tok })

/-- Set the restart interval (src/service.c:388-393,
`svc_set_restart_interval`): rejected when the whole-seconds part (the
arithmetic right shift by 32, i.e. floor division) is below 1. -/
def svc_set_restart_interval (svc : Svc) (interval : Int) : Bool × Svc :=
  if Int.fdiv interval (2 ^ 32) < 1 then (false, svc)
  else (true, { svc with restart_interval := interval })

/-- Modelled from the spec: the external signal-name table
(`num_by_name(name) → int > 0 | 0`, spec §6).  Only the distinction between
a known name (positive number) and an unknown one (zero) matters to the
claims; a small fixed table keeps the model executable. -/
def sig_num_by_name (s : List Char) : Int :=
  if s = "SIGHUP".toList then 1
  else if s = "SIGINT".toList then 2
  else if s = "SIGQUIT".toList then 3
  else if s = "SIGUSR1".toList then 10
  else if s = "SIGUSR2".toList then 12
  else if s = "SIGTERM".toList then 15
  else if s = "SIGCONT".toList then 18
  else 0

/-- Add a signal to a signal set (`sigaddset`, modelled as duplicate-free
insertion; it never fails for the positive numbers produced by
`sig_num_by_name`). -/
def sigset_add (s : List Int) (n : Int) : List Int :=
  if n ∈ s then s else s ++ [n]

/-- Trigger-token parse loop of `svc_set_triggers` (src/service.c:407-418):
walk the tab-separated tokens while they are nonempty; `always` sets the
autostart flag, a known signal name is added to the set and enables signal
wake, any other nonempty token fails the whole call.  The loop stops with
success at the first empty token or at the end of the list. -/
def parse_triggers : List (List Char) → Bool → List Int → Bool →
    Option (Bool × List Int × Bool)
  | [], a, s, e => some (a, s, e)
  | t :: rest, a, s, e =>
    if t = [] then some (a, s, e)
    else if t = always_tok then parse_triggers rest true s e
    else if sig_num_by_name t > 0 then
      parse_triggers rest a (sigset_add s (sig_num_by_name t)) true
    else none

/-- Set the `triggers` variable (src/service.c:400-434, `svc_set_triggers`):
parse and validate the token list, store the whole string (an empty string
deletes the entry), then commit the parsed flags, update sigwake
membership, and start the service at `now` when auto-restart is set or a
matching signal is already pending.  Any failure leaves the record and the
wake clock untouched. -/
def svc_set_triggers (svc : Svc) (wake : Wake) (triggers_tsv : List Char) (sigMatch : Bool) :
    Bool × Svc × Wake :=
  match parse_triggers (splitSep tab triggers_tsv) false [] false with
  | none => (false, svc, wake)
  | some (autostart, sigs, enable_sigs) =>
    match svc_set_var svc.cap svc.vars triggers_key
        (if triggers_tsv.length ≤ 0 then none else some triggers_tsv) with
    | none => (false, svc, wake)
    | some b =>
      let s1 := { svc with vars := b, auto_restart := autostart, autostart_signals := sigs }
      let s2 := svc_set_sigwake s1 enable_sigs
      if s2.auto_restart || svc_check_sigwake s2 sigMatch then
        let r := svc_handle_start s2 wake wake.now
        (true, r.2.1, r.2.2)
      else (true, s2, wake)

/-- Read the `triggers` variable (src/service.c:395-398, `svc_get_triggers`):
the stored string, or empty when unset. -/
def svc_get_triggers (svc : Svc) : List Char :=
  (svc_get_var svc.vars triggers_key).getD []

/-- Modelled from the spec: byte-string comparison (`strseg_cmp`, from the
strseg module which is not in scope).  The name index is lexicographic on
the name (spec §4.5); comparing byte by byte and breaking ties by length is
the standard lexicographic order on byte strings. -/
def strseg_cmp : List Char → List Char → Int
  | [], [] => 0
  | [], _ :: _ => -1
  | _ :: _, [] => 1
  | a :: as, b :: bs =>
    if a.toNat < b.toNat then -1
    else if b.toNat < a.toNat then 1
    else strseg_cmp as bs

/-- Modelled from the spec: the name index (Contained_RBTree, not in scope)
is an ordered associative container (spec §4.5); it is modelled as the
strictly ascending list of live service names.  `RBTree_Find` returns a
relation and a nearest node: relation 0 on the exact key, -1 when the key
precedes the returned node (the least greater element), and 1 when the key
follows every element (the greatest element is returned). -/
def rbfind : List (List Char) → List Char → Option (Int × Nat)
  | [], _ => none
  | a :: rest, key =>
    let c := strseg_cmp key a
    if c ≤ 0 then some (if c = 0 then 0 else -1, 0)
    else
      match rbfind rest key with
      | some (r, i) => some (r, i + 1)
      | none => some (1, 0)

/-- Position of a record's name-index node within the ascending name list
(the record handed to `svc_iter_next` carries its own tree node). -/
def idx_of : List (List Char) → List Char → Option Nat
  | [], _ => none
  | a :: rest, r => if a = r then some 0 else (idx_of rest r).map (fun i => i + 1)

/-- Iterate the name index (src/service.c:853-871, `svc_iter_next`): given a
record, step to the node after its own; given a starting name, find the
nearest node and return it when the name precedes it, its successor
otherwise. -/
def svc_iter_next (names : List (List Char)) (svc : Option (List Char))
    (from_name : List Char) : Option (List Char) :=
  match svc with
  | some r =>
    match idx_of names r with
    | some i => names.get? (i + 1)
    | none => none
  | none =>
    match rbfind names from_name with
    | none => none
    | some (rel, i) => if rel < 0 then names.get? i else names.get? (i + 1)

/-- Strict ascending order of the name-index list. -/
def names_sorted : List (List Char) → Bool
  | [] => true
  | [_] => true
  | a :: b :: rest => decide (strseg_cmp a b < 0) && names_sorted (b :: rest)

/-- Freshly constructed service record (src/service.c:168-193, `svc_ctor`):
zeroed fields, state DOWN, name stored, name-index node added. -/
def svc_ctor (name : List Char) : Svc :=
  { state := SvcState.down, name := name, vars := [], cap := none, pid := 0,
    auto_restart := false, sigwake := false, uses_control_event := false,
    uses_control_cmd := false, uses_control_socket := false, wait_status := 0,
    start_time := 0, reap_time := 0, restart_interval := 0, autostart_signals := [],
    active := false, on_sigwake_list := false, in_name_index := true,
    in_pid_index := false }

/-- Global state of the core: the live service records and the wake clock.
The name and pid indices are intrusive (each record carries its own
membership), so they need no separate representation. -/
structure GState where
  records : List Svc
  wake : Wake

/-- Operations of the core that the index invariant ranges over: create by
name (src/service.c:821-831, `svc_by_name` with create), delete
(src/service.c:147-165 and 195-204), start, reap handling, pid change, and
a state-machine tick. -/
inductive Op
  | create (name : List Char)
  | del (name : List Char)
  | start (name : List Char) (when : Int)
  | reaped (name : List Char) (wstat : Int)
  | changePid (name : List Char) (pid : Int)
  | tick (name : List Char) (forkOk : Bool) (forkPid : Int) (sigMatch : Bool)

/-- Apply an update function to the record with the given name, if any. -/
def gs_upd (gs : GState) (n : List Char) (f : Svc → Wake → Svc × Wake) : GState :=
  match gs.records.find? (fun r => decide (r.name = n)) with
  | none => gs
  | some r =>
    let res := f r gs.wake
    { records := gs.records.map (fun q => if q.name = n then res.1 else q),
      wake := res.2 }

/-- Step function over the global state. -/
def apply_op (gs : GState) (op : Op) : GState :=
  match op with
  | Op.create n =>
    match gs.records.find? (fun r => decide (r.name = n)) with
    | some _ => gs
    | none =>
      if svc_check_name n then { gs with records := gs.records ++ [svc_ctor n] } else gs
  | Op.del n => { gs with records := gs.records.eraseP (fun r => decide (r.name = n)) }
  | Op.start n t => gs_upd gs n (fun r w => ((svc_handle_start r w t).2.1, (svc_handle_start r w t).2.2))
  | Op.reaped n ws => gs_upd gs n (fun r w => svc_handle_reaped r w ws)
  | Op.changePid n p => gs_upd gs n (fun r w => (svc_change_pid r p, w))
  | Op.tick n fok fpid sm =>
    gs_upd gs n (fun r w => ((svc_run r w fok fpid sm).svc, (svc_run r w fok fpid sm).wake))

/-- Initial state: no services. -/
def init_gstate : GState := { records := [], wake := { now := 0, next := 0 } }

/-- Per-record pid-index invariant: the record owns a pid-index node exactly
when its pid is nonzero. -/
def svc_pid_inv (r : Svc) : Prop := r.in_pid_index = true ↔ r.pid ≠ 0

/-- Index invariant of the core (spec §8): every live record has exactly one
entry in the name index (its own node, and no two records share a name) and
an entry in the pid index iff its pid is nonzero. -/
def gs_inv (gs : GState) : Prop :=
  (∀ r ∈ gs.records, r.in_name_index = true ∧ svc_pid_inv r) ∧
    (gs.records.map Svc.name).Nodup

/-- Concrete wake clock used by witnesses: now 30s, deadline 31s. -/
def ex_wake : Wake := { now := 30 * 2 ^ 32, next := 31 * 2 ^ 32 }

/-- Concrete DOWN record used by witnesses. -/
def ex_down : Svc :=
  { state := SvcState.down
    name := "web".toList
    vars := []
    cap := none
    pid := 77
    auto_restart := false
    sigwake := false
    uses_control_event := false
    uses_control_cmd := false
    uses_control_socket := false
    wait_status := 0
    start_time := 0
    reap_time := 0
    restart_interval := 0
    autostart_signals := []
    active := false
    on_sigwake_list := false
    in_name_index := true
    in_pid_index := true }

/-- Concrete REAPED record: auto-restart on, previous run of 29 seconds,
restart interval 10 seconds, so the back-off does not apply. -/
def ex_reaped : Svc :=
  { ex_down with state := SvcState.reaped, pid := 123, auto_restart := true,
                 start_time := 2 ^ 32, reap_time := 30 * 2 ^ 32,
                 restart_interval := 10 * 2 ^ 32, active := true }

/-- Concrete START record whose start time is still in the future. -/
def ex_start_future : Svc :=
  { ex_down with state := SvcState.start, start_time := 40 * 2 ^ 32, active := true,
                 pid := 0, in_pid_index := false }

/-- Concrete pool-backed record with a 3-byte variable slot. -/
def ex_pool : Svc := { ex_down with cap := some 3 }

/-- Concrete record whose packed buffer holds the single entry `fds=x`. -/
def ex_fds_svc : Svc := { ex_down with vars := fds_key ++ '=' :: 'x' :: [nul] }

/-- Concrete packed buffer holding the single entry `k=a`. -/
def c5_buf : List Char := 'k' :: '=' :: 'a' :: [nul]

/-! Auxiliary lemmas about the state machine. -/

theorem aux_handle_start_fields (svc : Svc) (wake : Wake) (when : Int)
    (h : svc.state = SvcState.down ∨ svc.state = SvcState.start) :
    svc_handle_start svc wake when =
      (true,
       { svc with state := SvcState.start,
                  start_time := if max when wake.now = 0 then 1 else max when wake.now,
                  pid := 0,
                  in_pid_index := if svc.pid ≠ 0 then false else svc.in_pid_index,
                  reap_time := 0, wait_status := -1, active := true },
       { wake with next := wake.now }) := by
  have hg : ¬ (svc.state ≠ SvcState.down ∧ svc.state ≠ SvcState.start) := by
    rcases h with h | h <;> simp [h]
  have hmax : (if wake.now < when then when else wake.now) = max when wake.now := by
    rcases le_or_lt when wake.now with h2 | h2
    · rw [if_neg (by omega), max_eq_right h2]
    · rw [if_pos h2, max_eq_left (le_of_lt h2)]
  by_cases hp : svc.pid ≠ 0 <;>
    simp [svc_handle_start, hg, hmax, svc_change_pid, svc_set_active, hp]

theorem aux_run_start_future (n : Nat) (svc : Svc) (wake : Wake) (forkOk : Bool)
    (forkPid : Int) (sigMatch forked : Bool)
    (hs : svc.state = SvcState.start) (ht : wake.now < svc.start_time) :
    svc_run_go (n + 1) svc wake forkOk forkPid sigMatch forked =
      ⟨svc_set_active svc true,
       if svc.start_time - wake.next < 0 then { wake with next := svc.start_time } else wake,
       forked⟩ := by
  have h1 : svc.start_time - wake.now > 0 := by omega
  simp [svc_run_go, hs, h1]

theorem aux_run_start_due_forkok (n : Nat) (svc : Svc) (wake : Wake)
    (forkPid : Int) (sigMatch forked : Bool)
    (hs : svc.state = SvcState.start) (ht : svc.start_time ≤ wake.now) :
    svc_run_go (n + 1) svc wake true forkPid sigMatch forked =
      ⟨svc_set_active
         { svc_change_pid svc forkPid with
             start_time := if wake.now = 0 then 1 else wake.now, state := SvcState.up }
         false,
       wake, true⟩ := by
  have h1 : ¬ (svc.start_time - wake.now > 0) := by omega
  simp [svc_run_go, hs, h1]

theorem aux_run_start_due_forkfail (n : Nat) (svc : Svc) (wake : Wake)
    (forkPid : Int) (sigMatch forked : Bool)
    (hs : svc.state = SvcState.start) (ht : svc.start_time ≤ wake.now) (hn : 0 < wake.now) :
    (svc_run_go (n + 2) svc wake false forkPid sigMatch forked).svc.state = SvcState.start ∧
    (svc_run_go (n + 2) svc wake false forkPid sigMatch forked).svc.start_time =
      wake.now + FORK_RETRY_DELAY ∧
    (svc_run_go (n + 2) svc wake false forkPid sigMatch forked).svc.active = true ∧
    (svc_run_go (n + 2) svc wake false forkPid sigMatch forked).wake.next = wake.now ∧
    (svc_run_go (n + 2) svc wake false forkPid sigMatch forked).forked = true := by
  have h1 : ¬ (svc.start_time - wake.now > 0) := by omega
  have hd : (0 : Int) < FORK_RETRY_DELAY := by decide
  have hrw := aux_handle_start_fields svc wake (wake.now + FORK_RETRY_DELAY) (Or.inr hs)
  have hmax : max (wake.now + FORK_RETRY_DELAY) wake.now = wake.now + FORK_RETRY_DELAY := by
    apply max_eq_left
    omega
  have hnz : ¬ (wake.now + FORK_RETRY_DELAY = 0) := by omega
  have h2 : svc_run_go (n + 2) svc wake false forkPid sigMatch forked =
      svc_run_go (n + 1)
        { svc with state := SvcState.start, start_time := wake.now + FORK_RETRY_DELAY,
                   pid := 0,
                   in_pid_index := if svc.pid ≠ 0 then false else svc.in_pid_index,
                   reap_time := 0, wait_status := -1, active := true }
        { wake with next := wake.now } false forkPid sigMatch true := by
    simp only [show n + 2 = (n + 1) + 1 by omega]
    simp [svc_run_go, hs, h1, hrw, hmax, hnz]
  rw [h2, aux_run_start_future n _ _ _ _ _ _ (by simp) (by simp; omega)]
  have h3 : ¬ (wake.now + FORK_RETRY_DELAY - wake.now < 0) := by omega
  have h4 : ¬ (FORK_RETRY_DELAY < (0 : Int)) := by decide
  simp [svc_set_active, h3, h4]

theorem aux_run_down (n : Nat) (svc : Svc) (wake : Wake) (forkOk : Bool)
    (forkPid : Int) (sigMatch forked : Bool) (hs : svc.state = SvcState.down) :
    svc_run_go (n + 1) svc wake forkOk forkPid sigMatch forked =
      ⟨svc_set_active svc false, wake, forked⟩ := by
  simp [svc_run_go, hs]

theorem aux_run_reaped (n : Nat) (svc : Svc) (wake : Wake) (forkOk : Bool)
    (forkPid : Int) (sigMatch forked : Bool) (hs : svc.state = SvcState.reaped) :
    svc_run_go (n + 1) svc wake forkOk forkPid sigMatch forked =
      (if (svc.auto_restart || (svc.sigwake && sigMatch)) = true then
         svc_run_go n
           (svc_handle_start { svc with state := SvcState.down } wake
             (if svc.reap_time - svc.start_time < svc.restart_interval then
                wake.now + svc.restart_interval else wake.now)).2.1
           (svc_handle_start { svc with state := SvcState.down } wake
             (if svc.reap_time - svc.start_time < svc.restart_interval then
                wake.now + svc.restart_interval else wake.now)).2.2
           forkOk forkPid sigMatch forked
       else svc_run_go n { svc with state := SvcState.down } wake forkOk forkPid
              sigMatch forked) := by
  simp only [svc_run_go, hs, svc_check_sigwake]

/-! Auxiliary lemmas about the packed variable buffer. -/

theorem aux_find_go_eq (name : List Char) (fuel : Nat) :
    ∀ buf : List Char, buf.length ≤ fuel → find_entry_go name fuel buf = find_entry name buf := by
  induction fuel using Nat.strong_induction_on with
  | _ fuel ih =>
    intro buf hle
    cases fuel with
    | zero =>
      cases buf with
      | nil => rfl
      | cons b bs => simp at hle
    | succ f =>
      cases buf with
      | nil => rfl
      | cons b bs =>
        have hrest : (((b :: bs).dropWhile (fun c => decide (c ≠ nul))).drop 1).length ≤
            bs.length := by
          have h2 := (List.dropWhile_suffix (p := fun c => decide (c ≠ nul))
            (l := b :: bs)).length_le
          simp only [List.length_drop, List.length_cons] at *
          omega
        have hbs : bs.length ≤ f := by
          simp only [List.length_cons] at hle
          omega
        show _ = find_entry_go name ((b :: bs).length) (b :: bs)
        simp only [find_entry_go, List.length_cons]
        rw [ih f (by omega) _ (le_trans hrest hbs), ih bs.length (by omega) _ hrest]

theorem aux_takeWhile_append (p : Char → Bool) (as : List Char) (c : Char) (bs : List Char)
    (h : ∀ x ∈ as, p x = true) (hc : p c = false) :
    (as ++ c :: bs).takeWhile p = as := by
  induction as with
  | nil => simp [List.takeWhile_cons, hc]
  | cons a t ih =>
    have ha : p a = true := h a (List.mem_cons_self a t)
    simp [List.takeWhile_cons, ha, ih (fun x hx => h x (List.mem_cons_of_mem a hx))]

theorem aux_dropWhile_append (p : Char → Bool) (as : List Char) (c : Char) (bs : List Char)
    (h : ∀ x ∈ as, p x = true) (hc : p c = false) :
    (as ++ c :: bs).dropWhile p = c :: bs := by
  induction as with
  | nil => simp [List.dropWhile_cons, hc]
  | cons a t ih =>
    have ha : p a = true := h a (List.mem_cons_self a t)
    simp [List.dropWhile_cons, ha, ih (fun x hx => h x (List.mem_cons_of_mem a hx))]

theorem aux_find_entry_cons (name : List Char) (b : Char) (bs : List Char) :
    find_entry name (b :: bs) =
      (if ((b :: bs).takeWhile (fun c => c ≠ nul)).takeWhile (fun c => c ≠ '=') = name then
        some ([], (((b :: bs).takeWhile (fun c => c ≠ nul)).dropWhile
                    (fun c => c ≠ '=')).drop 1,
              ((b :: bs).dropWhile (fun c => c ≠ nul)).drop 1)
       else
        (find_entry name (((b :: bs).dropWhile (fun c => c ≠ nul)).drop 1)).map
          (fun r => ((b :: bs).takeWhile (fun c => c ≠ nul) ++ nul :: r.1, r.2.1, r.2.2))) := by
  have hrest : (((b :: bs).dropWhile (fun c => decide (c ≠ nul))).drop 1).length ≤
      bs.length := by
    have h2 := (List.dropWhile_suffix (p := fun c => decide (c ≠ nul))
      (l := b :: bs)).length_le
    simp only [List.length_drop, List.length_cons] at *
    omega
  show find_entry_go name ((b :: bs).length) (b :: bs) = _
  simp only [find_entry_go, List.length_cons]
  rw [aux_find_go_eq name bs.length _ hrest]
  cases find_entry name (((b :: bs).dropWhile (fun c => decide (c ≠ nul))).drop 1) with
  | none => simp
  | some r => cases r with | mk p rest => cases rest with | mk o t => simp

theorem aux_encode_append (a b : List (List Char × List Char)) :
    encode_vars (a ++ b) = encode_vars a ++ encode_vars b := by
  induction a with
  | nil => simp [encode_vars]
  | cons e t ih => cases e; simp [encode_vars, ih]

theorem aux_find_entry_encode_cons (name k v : List Char)
    (l : List (List Char × List Char)) (h : entryOk (k, v)) :
    find_entry name (encode_vars ((k, v) :: l)) =
      (if k = name then some ([], v, encode_vars l)
       else
        (find_entry name (encode_vars l)).map
          (fun r => ((k ++ '=' :: v) ++ nul :: r.1, r.2.1, r.2.2))) := by
  obtain ⟨hk0, hk1, hk2, hv⟩ := h
  have hmem : ∀ x ∈ k ++ '=' :: v, (decide (x ≠ nul)) = true := by
    intro x hx
    rcases List.mem_append.1 hx with hx | hx
    · simp
      intro he
      exact hk1 (he ▸ hx)
    · rcases List.mem_cons.1 hx with hx | hx
      · simp [hx, nul]
      · simp
        intro he
        exact hv (he ▸ hx)
  have hknul : (decide (¬ nul = nul) : Bool) = false := by simp
  have hassoc : encode_vars ((k, v) :: l) = (k ++ '=' :: v) ++ nul :: encode_vars l := by
    simp [encode_vars]
  have htw : (encode_vars ((k, v) :: l)).takeWhile (fun c => decide (c ≠ nul)) =
      k ++ '=' :: v := by
    rw [hassoc]
    exact aux_takeWhile_append _ _ _ _ hmem (by simp)
  have hdw : (encode_vars ((k, v) :: l)).dropWhile (fun c => decide (c ≠ nul)) =
      nul :: encode_vars l := by
    rw [hassoc]
    exact aux_dropWhile_append _ _ _ _ hmem (by simp)
  have hkmem : ∀ x ∈ k, (decide (x ≠ '=')) = true := by
    intro x hx
    simp
    intro he
    exact hk2 (he ▸ hx)
  have hktw : (k ++ '=' :: v).takeWhile (fun c => decide (c ≠ '=')) = k :=
    aux_takeWhile_append _ _ _ _ hkmem (by simp)
  have hkdw : (k ++ '=' :: v).dropWhile (fun c => decide (c ≠ '=')) = '=' :: v :=
    aux_dropWhile_append _ _ _ _ hkmem (by simp)
  cases hc : encode_vars ((k, v) :: l) with
  | nil =>
    exfalso
    cases k with
    | nil => exact hk0 rfl
    | cons k0 kt => simp [encode_vars] at hc
  | cons b bs =>
    rw [aux_find_entry_cons]
    rw [← hc, htw, hdw, hktw, hkdw]
    simp

theorem aux_find_encode_absent (name : List Char) (l : List (List Char × List Char))
    (hok : ∀ e ∈ l, entryOk e) (hab : ∀ e ∈ l, e.1 ≠ name) :
    find_entry name (encode_vars l) = none := by
  induction l with
  | nil => rfl
  | cons e t ih =>
    cases e with
    | mk k v =>
      rw [aux_find_entry_encode_cons name k v t (hok _ (List.mem_cons_self _ _))]
      rw [if_neg (hab _ (List.mem_cons_self _ _))]
      rw [ih (fun x hx => hok x (List.mem_cons_of_mem _ hx))
          (fun x hx => hab x (List.mem_cons_of_mem _ hx))]
      rfl

theorem aux_find_encode_present (name w : List Char) (l1 l2 : List (List Char × List Char))
    (hok : ∀ e ∈ l1, entryOk e) (hw : entryOk (name, w)) (hab : ∀ e ∈ l1, e.1 ≠ name) :
    find_entry name (encode_vars (l1 ++ (name, w) :: l2)) =
      some (encode_vars l1, w, encode_vars l2) := by
  induction l1 with
  | nil =>
    simp only [List.nil_append]
    rw [aux_find_entry_encode_cons name name w l2 hw, if_pos rfl]
    rfl
  | cons e t ih =>
    cases e with
    | mk k v =>
      rw [List.cons_append,
        aux_find_entry_encode_cons name k v (t ++ (name, w) :: l2)
          (hok _ (List.mem_cons_self _ _))]
      rw [if_neg (hab _ (List.mem_cons_self _ _))]
      rw [ih (fun x hx => hok x (List.mem_cons_of_mem _ hx))
          (fun x hx => hab x (List.mem_cons_of_mem _ hx))]
      simp [encode_vars]

theorem aux_exists_split (name : List Char) (l : List (List Char × List Char))
    (h : ∃ e ∈ l, e.1 = name) :
    ∃ l1 w l2, l = l1 ++ (name, w) :: l2 ∧ ∀ e ∈ l1, e.1 ≠ name := by
  induction l with
  | nil => simp at h
  | cons e t ih =>
    by_cases he : e.1 = name
    · refine ⟨[], e.2, t, ?_, by simp⟩
      cases e
      simp at he
      simp [he]
    · obtain ⟨x, hx, hx1⟩ := h
      rcases List.mem_cons.1 hx with hx | hx
      · exact absurd (hx ▸ hx1) he
      · obtain ⟨l1, w, l2, hsplit, hne⟩ := ih ⟨x, hx, hx1⟩
        refine ⟨e :: l1, w, l2, by simp [hsplit], ?_⟩
        intro y hy
        rcases List.mem_cons.1 hy with hy | hy
        · exact hy ▸ he
        · exact hne y hy

theorem aux_absent_of_get_none (k : List Char) (l : List (List Char × List Char))
    (hok : ∀ e ∈ l, entryOk e)
    (hget : svc_get_var (encode_vars l) k = none) : ∀ e ∈ l, e.1 ≠ k := by
  intro e he hek
  obtain ⟨l1, w, l2, hsplit, hne⟩ := aux_exists_split k l ⟨e, he, hek⟩
  subst hsplit
  rw [svc_get_var, aux_find_encode_present k w l1 l2
      (fun x hx => hok x (by simp [hx])) (hok _ (by simp)) hne] at hget
  simp at hget

theorem aux_delete_result (cap : Option Nat) (vars name : List Char) :
    svc_set_var cap vars name none =
      some (match find_entry name vars with
            | some (p, _, t) => p ++ t
            | none => vars) := by
  obtain ⟨x, hx⟩ : ∃ x, find_entry name vars = x := ⟨_, rfl⟩
  simp only [svc_set_var, set_var_sizediff, hx]
  cases x with
  | none => simp
  | some r =>
    obtain ⟨p, o, t⟩ := r
    have hsd : ¬ ((-((o.length : Int) + 1 + name.length + 1)) > 0) := by
      have h1 : (0 : Int) ≤ (o.length : Int) := Int.natCast_nonneg _
      have h2 : (0 : Int) ≤ (name.length : Int) := Int.natCast_nonneg _
      omega
    simp [hsd]
    intro hcontra
    exfalso
    omega

theorem aux_set_var_heap_some (vars name v : List Char) :
    svc_set_var none vars name (some v) =
      some (match find_entry name vars with
            | some (p, _, t) => p ++ name ++ '=' :: v ++ nul :: t
            | none => vars ++ name ++ '=' :: v ++ [nul]) := by
  obtain ⟨x, hx⟩ : ∃ x, find_entry name vars = x := ⟨_, rfl⟩
  simp only [svc_set_var, set_var_sizediff, hx]
  cases x with
  | none => simp
  | some r =>
    obtain ⟨p, o, t⟩ := r
    simp

theorem aux_set_then_get (cap : Option Nat) (vars k v b : List Char)
    (hwf : vars_wf vars) (hk : key_valid k) (hv : nul ∉ v)
    (hset : svc_set_var cap vars k (some v) = some b) :
    svc_get_var b k = some v := by
  obtain ⟨l, ⟨hok, hnd⟩, rfl⟩ := hwf
  have hko : entryOk (k, v) := ⟨hk.1, hk.2.1, hk.2.2, hv⟩
  by_cases hp : ∃ e ∈ l, e.1 = k
  · obtain ⟨l1, w, l2, hsplit, hne⟩ := aux_exists_split k l hp
    subst hsplit
    have hok1 : ∀ e ∈ l1, entryOk e := fun x hx => hok x (by simp [hx])
    have hfind := aux_find_encode_present k w l1 l2 hok1 (hok _ (by simp)) hne
    simp only [svc_set_var, set_var_sizediff, hfind] at hset
    split_ifs at hset with hov
    rw [Option.some.injEq] at hset
    subst hset
    have hb : encode_vars l1 ++ k ++ '=' :: v ++ nul :: encode_vars l2 =
        encode_vars (l1 ++ (k, v) :: l2) := by
      rw [aux_encode_append]
      simp [encode_vars]
    rw [svc_get_var, hb, aux_find_encode_present k v l1 l2 hok1 hko hne]
    rfl
  · push_neg at hp
    have hfind := aux_find_encode_absent k l hok hp
    simp only [svc_set_var, set_var_sizediff, hfind] at hset
    split_ifs at hset with hov
    rw [Option.some.injEq] at hset
    subst hset
    have hb : encode_vars l ++ k ++ '=' :: v ++ [nul] = encode_vars (l ++ [(k, v)]) := by
      rw [aux_encode_append]
      simp [encode_vars]
    rw [svc_get_var, hb, aux_find_encode_present k v l [] hok hko hp]
    rfl

theorem aux_handle_start_pres (x : Svc) (w : Wake) (t : Int) :
    (svc_handle_start x w t).2.1.auto_restart = x.auto_restart ∧
    (svc_handle_start x w t).2.1.autostart_signals = x.autostart_signals ∧
    (svc_handle_start x w t).2.1.vars = x.vars ∧
    (svc_handle_start x w t).2.1.cap = x.cap ∧
    (svc_handle_start x w t).2.1.name = x.name ∧
    (svc_handle_start x w t).2.1.in_name_index = x.in_name_index ∧
    (svc_handle_start x w t).2.1.sigwake = x.sigwake ∧
    (svc_handle_start x w t).2.1.restart_interval = x.restart_interval := by
  unfold svc_handle_start svc_change_pid svc_set_active
  by_cases hp : x.pid = 0 <;> split_ifs <;> simp_all

theorem aux_parse_triggers_stop (good rest : List (List Char)) (a : Bool) (s : List Int)
    (e : Bool) (h : ∀ t ∈ good, t ≠ []) :
    parse_triggers (good ++ [] :: rest) a s e = parse_triggers good a s e := by
  induction good generalizing a s e with
  | nil => simp [parse_triggers]
  | cons t ts ih =>
    have ht : t ≠ [] := h t (List.mem_cons_self t ts)
    have hts : ∀ x ∈ ts, x ≠ [] := fun x hx => h x (List.mem_cons_of_mem t hx)
    simp only [List.cons_append, parse_triggers, if_neg ht]
    split_ifs <;> first
      | exact ih _ _ _ hts
      | rfl

/-! Claim theorems. -/

/-- C1: for every record whose state is DOWN or START and every time `when`,
`svc_handle_start` returns true and afterwards the state is START,
`start_time` is `max when now` biased from 0 to 1, pid is 0, reap time is 0,
wait status is -1, the record is on the active list, and the loop wake
deadline equals `now`. -/
theorem C1_handle_start (svc : Svc) (wake : Wake) (when : Int)
    (h : svc.state = SvcState.down ∨ svc.state = SvcState.start) :
    (svc_handle_start svc wake when).1 = true ∧
    (svc_handle_start svc wake when).2.1.state = SvcState.start ∧
    (svc_handle_start svc wake when).2.1.start_time =
      (if max when wake.now = 0 then 1 else max when wake.now) ∧
    (svc_handle_start svc wake when).2.1.pid = 0 ∧
    (svc_handle_start svc wake when).2.1.reap_time = 0 ∧
    (svc_handle_start svc wake when).2.1.wait_status = -1 ∧
    (svc_handle_start svc wake when).2.1.active = true ∧
    (svc_handle_start svc wake when).2.2.now = wake.now ∧
    (svc_handle_start svc wake when).2.2.next = wake.now := by
  rw [aux_handle_start_fields svc wake when h]
  simp

/-- C1 witness: starting the concrete DOWN record at a future time 40s. -/
theorem C1_handle_start_witness :
    (ex_down.state = SvcState.down ∨ ex_down.state = SvcState.start) ∧
    ((svc_handle_start ex_down ex_wake (40 * 2 ^ 32)).1 = true ∧
     (svc_handle_start ex_down ex_wake (40 * 2 ^ 32)).2.1.state = SvcState.start ∧
     (svc_handle_start ex_down ex_wake (40 * 2 ^ 32)).2.1.start_time =
       (if max (40 * 2 ^ 32) ex_wake.now = 0 then 1 else max (40 * 2 ^ 32) ex_wake.now) ∧
     (svc_handle_start ex_down ex_wake (40 * 2 ^ 32)).2.1.pid = 0 ∧
     (svc_handle_start ex_down ex_wake (40 * 2 ^ 32)).2.1.reap_time = 0 ∧
     (svc_handle_start ex_down ex_wake (40 * 2 ^ 32)).2.1.wait_status = -1 ∧
     (svc_handle_start ex_down ex_wake (40 * 2 ^ 32)).2.1.active = true ∧
     (svc_handle_start ex_down ex_wake (40 * 2 ^ 32)).2.2.now = ex_wake.now ∧
     (svc_handle_start ex_down ex_wake (40 * 2 ^ 32)).2.2.next = ex_wake.now) :=
  ⟨Or.inl (by decide), C1_handle_start ex_down ex_wake (40 * 2 ^ 32) (Or.inl (by decide))⟩

/-- C3: the source accepts the empty name.  `svc_check_name` only rejects
names of length at least NAME_BUF_SIZE and names with a byte outside the
allowed class; the zero-length loop body never runs, so the empty string
passes, contradicting the claimed 1-byte minimum and the source's own
assertion `svc->name.len > 0` in `svc_check` (src/service.c:877), which a
service created with the empty name would violate. -/
theorem C3_empty_name_accepted : svc_check_name [] = true := by decide

/-- C8: a START record whose start time lies in the future and which is on
the active list is left entirely unchanged by a tick — no fork happens —
and the only effect is lowering the loop wake deadline to
`min next start_time`. -/
theorem C8_start_future_frame (svc : Svc) (wake : Wake) (forkOk : Bool)
    (forkPid : Int) (sigMatch : Bool)
    (hs : svc.state = SvcState.start) (ht : wake.now < svc.start_time)
    (ha : svc.active = true) :
    (svc_run svc wake forkOk forkPid sigMatch).svc = svc ∧
    (svc_run svc wake forkOk forkPid sigMatch).wake.now = wake.now ∧
    (svc_run svc wake forkOk forkPid sigMatch).wake.next = min wake.next svc.start_time ∧
    (svc_run svc wake forkOk forkPid sigMatch).forked = false := by
  have h4 : (4 : Nat) = 3 + 1 := by omega
  rw [svc_run, h4, aux_run_start_future 3 svc wake forkOk forkPid sigMatch false hs ht]
  have hsa : svc_set_active svc true = svc := by
    cases svc
    simp only [svc_set_active] at ha ⊢
    simp_all
  refine ⟨hsa, ?_, ?_, rfl⟩ <;> by_cases h5 : svc.start_time - wake.next < 0 <;>
    simp [h5] <;> omega

/-- C2 counterexample: the concrete REAPED record has auto-restart set and
ran longer than its restart interval, so the claim predicts that one
`svc_run` call leaves it in START scheduled at `now`; instead the same call
continues through the START case, forks, and returns with the record UP. -/
theorem C2_counterexample :
    ex_reaped.state = SvcState.reaped ∧ ex_reaped.auto_restart = true ∧
    ¬ (ex_reaped.reap_time - ex_reaped.start_time < ex_reaped.restart_interval) ∧
    (svc_run ex_reaped ex_wake true 555 false).svc.state = SvcState.up ∧
    (svc_run ex_reaped ex_wake true 555 false).forked = true := by
  refine ⟨rfl, rfl, by decide, ?_, ?_⟩ <;> decide

/-- C2 (amended): one `svc_run` call on a REAPED record (clock positive,
restart interval positive) moves it to DOWN and deactivates it when neither
auto-restart nor a pending trigger signal is present.  Otherwise, when the
previous run was shorter than the restart interval the call ends in START
scheduled at `now + restart_interval` without forking; when it ran at least
that long the restart is scheduled at `now`, so the same call goes on to
attempt the fork: on fork success it ends UP with the forked pid, on fork
failure it ends in START rescheduled at `now + FORK_RETRY_DELAY`. -/
theorem C2_reaped_tick (svc : Svc) (wake : Wake) (forkOk : Bool) (forkPid : Int)
    (sigMatch : Bool) (hs : svc.state = SvcState.reaped) (hn : 0 < wake.now)
    (hi : 0 < svc.restart_interval) :
    ((svc.auto_restart || (svc.sigwake && sigMatch)) = false →
        (svc_run svc wake forkOk forkPid sigMatch).svc.state = SvcState.down ∧
        (svc_run svc wake forkOk forkPid sigMatch).svc.active = false ∧
        (svc_run svc wake forkOk forkPid sigMatch).forked = false) ∧
    ((svc.auto_restart || (svc.sigwake && sigMatch)) = true →
        (svc.reap_time - svc.start_time < svc.restart_interval →
            (svc_run svc wake forkOk forkPid sigMatch).svc.state = SvcState.start ∧
            (svc_run svc wake forkOk forkPid sigMatch).svc.start_time =
              wake.now + svc.restart_interval ∧
            (svc_run svc wake forkOk forkPid sigMatch).svc.active = true ∧
            (svc_run svc wake forkOk forkPid sigMatch).forked = false) ∧
        (svc.restart_interval ≤ svc.reap_time - svc.start_time →
            (svc_run svc wake forkOk forkPid sigMatch).forked = true ∧
            (forkOk = true →
              (svc_run svc wake forkOk forkPid sigMatch).svc.state = SvcState.up ∧
              (svc_run svc wake forkOk forkPid sigMatch).svc.pid = forkPid) ∧
            (forkOk = false →
              (svc_run svc wake forkOk forkPid sigMatch).svc.state = SvcState.start ∧
              (svc_run svc wake forkOk forkPid sigMatch).svc.start_time =
                wake.now + FORK_RETRY_DELAY))) := by
  have e4 : (4 : Nat) = 3 + 1 := rfl
  rw [svc_run, e4, aux_run_reaped 3 svc wake forkOk forkPid sigMatch false hs]
  constructor
  · intro hc
    rw [if_neg (by simp [hc])]
    rw [show (3 : Nat) = 2 + 1 from rfl, aux_run_down 2 _ _ _ _ _ _ rfl]
    simp [svc_set_active]
  · intro hc
    rw [if_pos hc]
    constructor
    · intro hb
      rw [if_pos hb,
        aux_handle_start_fields { svc with state := SvcState.down } wake _ (Or.inl rfl)]
      have hmax : max (wake.now + svc.restart_interval) wake.now
          = wake.now + svc.restart_interval := max_eq_left (by omega)
      have hnz : ¬ (wake.now + svc.restart_interval = 0) := by omega
      simp only [hmax, if_neg hnz]
      rw [show (3 : Nat) = 2 + 1 from rfl,
        aux_run_start_future 2 _ _ _ _ _ _ rfl (by simp; omega)]
      simp [svc_set_active]
    · intro hb
      rw [if_neg (by omega),
        aux_handle_start_fields { svc with state := SvcState.down } wake _ (Or.inl rfl)]
      have hmax : max wake.now wake.now = wake.now := max_self wake.now
      have hnz : ¬ (wake.now = 0) := by omega
      simp only [hmax, if_neg hnz]
      rcases forkOk with _ | _
      · have h := aux_run_start_due_forkfail 1
          { svc with state := SvcState.start, start_time := wake.now, pid := 0,
                     in_pid_index := if svc.pid ≠ 0 then false else svc.in_pid_index,
                     reap_time := 0, wait_status := -1, active := true }
          { wake with next := wake.now }
          forkPid sigMatch false rfl (by simp) (by simpa using hn)
        refine ⟨by simpa using h.2.2.2.2, by simp, fun _ => ⟨?_, ?_⟩⟩
        · simpa using h.1
        · simpa using h.2.1
      · rw [show (3 : Nat) = 2 + 1 from rfl,
          aux_run_start_due_forkok 2 _ _ _ _ _ rfl (by simp)]
        refine ⟨rfl, fun _ => ⟨rfl, ?_⟩, by simp⟩
        simp only [svc_set_active, svc_change_pid]
        split_ifs <;> rfl

/-- C2 witness: the REAPED record past its back-off window with a failing
fork ends the same call in START rescheduled at `now + FORK_RETRY_DELAY`. -/
theorem C2_reaped_tick_witness :
    (ex_reaped.state = SvcState.reaped ∧ 0 < ex_wake.now ∧
      0 < ex_reaped.restart_interval) ∧
    (svc_run ex_reaped ex_wake false 555 false).forked = true ∧
    (svc_run ex_reaped ex_wake false 555 false).svc.state = SvcState.start ∧
    (svc_run ex_reaped ex_wake false 555 false).svc.start_time =
      ex_wake.now + FORK_RETRY_DELAY := by
  have h := ((C2_reaped_tick ex_reaped ex_wake false 555 false rfl (by decide)
    (by decide)).2 (by decide)).2 (by decide)
  exact ⟨⟨rfl, by decide, by decide⟩, h.1, (h.2.2 rfl).1, (h.2.2 rfl).2⟩

/-- C8 witness: ticking the concrete future-scheduled START record. -/
theorem C8_start_future_frame_witness :
    (ex_start_future.state = SvcState.start ∧ ex_wake.now < ex_start_future.start_time ∧
     ex_start_future.active = true) ∧
    ((svc_run ex_start_future ex_wake true 555 false).svc = ex_start_future ∧
     (svc_run ex_start_future ex_wake true 555 false).wake.now = ex_wake.now ∧
     (svc_run ex_start_future ex_wake true 555 false).wake.next =
       min ex_wake.next ex_start_future.start_time ∧
     (svc_run ex_start_future ex_wake true 555 false).forked = false) :=
  ⟨⟨by decide, by decide, by decide⟩,
   C8_start_future_frame ex_start_future ex_wake true 555 false
     (by decide) (by decide) (by decide)⟩

/-- C5 counterexample: when k is already present (here `k=a`), setting k and
then deleting it removes the whole entry, so the packed buffer ends empty
instead of returning byte-for-byte to its prior state `k=a NUL`. -/
theorem C5_counterexample :
    key_valid ('k' :: []) ∧ ('b' :: []) ≠ [] ∧ nul ∉ ('b' :: []) ∧ vars_wf c5_buf ∧
    svc_set_var none c5_buf ('k' :: []) (some ('b' :: [])) =
      some ('k' :: '=' :: 'b' :: [nul]) ∧
    svc_set_var none ('k' :: '=' :: 'b' :: [nul]) ('k' :: []) none = some [] ∧
    ([] : List Char) ≠ c5_buf :=
  ⟨⟨by decide, by decide, by decide⟩, by decide, by decide,
   ⟨[(('k' :: []), ('a' :: []))], ⟨by simp [entryOk, nul], by simp⟩, rfl⟩,
   by decide, by decide, by decide⟩

/-- C5 (amended): on a well-formed buffer, for a valid key k that is absent
before the first set and a nonempty NUL-free value v, a successful
`set_var(k, v)` makes `get_var(k)` return exactly v, and setting k to the
empty value afterwards restores the packed buffer byte-for-byte and leaves
k absent.  (When k was already present the delete also removes the
pre-existing entry, so the buffer does not return to its prior state.) -/
theorem C5_set_get_delete (cap : Option Nat) (vars k v vars2 : List Char)
    (hwf : vars_wf vars) (hk : key_valid k) (hv : nul ∉ v) (_hv0 : v ≠ [])
    (habs : svc_get_var vars k = none)
    (hset : svc_set_var cap vars k (some v) = some vars2) :
    svc_get_var vars2 k = some v ∧
    svc_set_var cap vars2 k none = some vars ∧
    svc_get_var vars k = none := by
  have hget2 : svc_get_var vars2 k = some v :=
    aux_set_then_get cap vars k v vars2 hwf hk hv hset
  obtain ⟨l, ⟨hok, hnd⟩, hvars⟩ := hwf
  subst hvars
  have hab : ∀ e ∈ l, e.1 ≠ k := aux_absent_of_get_none k l hok habs
  have hfind : find_entry k (encode_vars l) = none := aux_find_encode_absent k l hok hab
  have hko : entryOk (k, v) := ⟨hk.1, hk.2.1, hk.2.2, hv⟩
  refine ⟨hget2, ?_, habs⟩
  simp only [svc_set_var, set_var_sizediff, hfind] at hset
  split_ifs at hset with hov
  rw [Option.some.injEq] at hset
  subst hset
  have hb : encode_vars l ++ k ++ '=' :: v ++ [nul] = encode_vars (l ++ [(k, v)]) := by
    rw [aux_encode_append]
    simp [encode_vars]
  rw [hb, aux_delete_result, aux_find_encode_present k v l [] hok hko hab]
  simp [encode_vars]

/-- C5 witness: set then delete of key `k` on the empty buffer. -/
theorem C5_set_get_delete_witness :
    (key_valid ('k' :: []) ∧ nul ∉ ('a' :: []) ∧ ('a' :: []) ≠ [] ∧
     svc_get_var [] ('k' :: []) = none ∧
     svc_set_var none [] ('k' :: []) (some ('a' :: [])) =
       some ('k' :: '=' :: 'a' :: [nul])) ∧
    (svc_get_var ('k' :: '=' :: 'a' :: [nul]) ('k' :: []) = some ('a' :: []) ∧
     svc_set_var none ('k' :: '=' :: 'a' :: [nul]) ('k' :: []) none = some [] ∧
     svc_get_var [] ('k' :: []) = none) :=
  ⟨⟨⟨by decide, by decide, by decide⟩, by decide, by decide, by decide, by decide⟩,
   C5_set_get_delete none [] ('k' :: []) ('a' :: []) ('k' :: '=' :: 'a' :: [nul])
     ⟨[], ⟨fun e he => absurd he (List.not_mem_nil e), by simp⟩, rfl⟩
     ⟨by decide, by decide, by decide⟩ (by decide) (by decide) (by decide) (by decide)⟩

/-- C4: each validation failure leaves the whole record (and the wake clock)
untouched: a triggers string whose parse hits an invalid token, a restart
interval whose whole-seconds part is below 1, and a `set_var` growth (here
through `set_tags`, the representative pool-limited setter) that would
exceed a pool-backed slot's capacity all return false and change nothing. -/
theorem C4_setter_failure_atomic :
    (∀ (svc : Svc) (wake : Wake) (tsv : List Char) (m : Bool),
        parse_triggers (splitSep tab tsv) false [] false = none →
        svc_set_triggers svc wake tsv m = (false, svc, wake)) ∧
    (∀ (svc : Svc) (i : Int), Int.fdiv i (2 ^ 32) < 1 →
        svc_set_restart_interval svc i = (false, svc)) ∧
    (∀ (svc : Svc) (v : List Char) (c : Nat),
        svc.cap = some c → 0 < v.length →
        set_var_sizediff svc.vars tags_key (some v) > 0 →
        (svc.vars.length : Int) + set_var_sizediff svc.vars tags_key (some v) > (c : Int) →
        svc_set_tags svc v = (false, svc)) := by
  refine ⟨?_, ?_, ?_⟩
  · intro svc wake tsv m hp
    simp [svc_set_triggers, hp]
  · intro svc i hi
    have hi2 : Int.fdiv i 4294967296 < 1 := by
      have he : (2 : Int) ^ 32 = 4294967296 := by norm_num
      rwa [he] at hi
    simp [svc_set_restart_interval, hi2]
  · intro svc v c hcap hv hsd hover
    have hlen : ¬ (v.length ≤ 0) := by omega
    have hov : (decide (set_var_sizediff svc.vars tags_key (some v) > 0) &&
        (match svc.cap with
         | some c2 => decide ((svc.vars.length : Int) +
             set_var_sizediff svc.vars tags_key (some v) > (c2 : Int))
         | none => false)) = true := by
      rw [hcap]
      simp only [Bool.and_eq_true, decide_eq_true_eq]
      exact ⟨hsd, hover⟩
    simp [svc_set_tags, svc_set_var, hlen, hov]

/-- C4 witness: an unknown trigger token, a sub-second restart interval, and
a 9-byte growth against a 3-byte pool slot each fail atomically. -/
theorem C4_setter_failure_atomic_witness :
    (parse_triggers (splitSep tab "bogus".toList) false [] false = none ∧
     svc_set_triggers ex_down ex_wake "bogus".toList false = (false, ex_down, ex_wake)) ∧
    (Int.fdiv 5 (2 ^ 32) < 1 ∧ svc_set_restart_interval ex_down 5 = (false, ex_down)) ∧
    (ex_pool.cap = some 3 ∧ 0 < ("abc".toList).length ∧
     set_var_sizediff ex_pool.vars tags_key (some "abc".toList) > 0 ∧
     (ex_pool.vars.length : Int) +
       set_var_sizediff ex_pool.vars tags_key (some "abc".toList) > (3 : Int) ∧
     svc_set_tags ex_pool "abc".toList = (false, ex_pool)) :=
  ⟨⟨by decide, C4_setter_failure_atomic.1 ex_down ex_wake "bogus".toList false (by decide)⟩,
   ⟨by decide, C4_setter_failure_atomic.2.1 ex_down 5 (by decide)⟩,
   ⟨rfl, by decide, by decide, by decide,
    C4_setter_failure_atomic.2.2 ex_pool "abc".toList 3 rfl (by decide) (by decide)
      (by decide)⟩⟩

/-- C6: setting `fds` to the default `null TAB null TAB null` always
succeeds, removes the `fds` entry (strictly shrinking a well-formed buffer
that held one, never growing it) and leaves all three `uses_control_*`
flags false; and after any successful `set_fds` each flag is true exactly
when its literal control token occurs in the tab-separated list. -/
theorem C6_set_fds_flags :
    (∀ svc : Svc, vars_wf svc.vars →
        (svc_set_fds svc fds_default).1 = true ∧
        svc_get_var (svc_set_fds svc fds_default).2.vars fds_key = none ∧
        (svc_set_fds svc fds_default).2.vars.length ≤ svc.vars.length ∧
        ((svc_get_var svc.vars fds_key).isSome = true →
          (svc_set_fds svc fds_default).2.vars.length < svc.vars.length) ∧
        (svc_set_fds svc fds_default).2.uses_control_event = false ∧
        (svc_set_fds svc fds_default).2.uses_control_cmd = false ∧
        (svc_set_fds svc fds_default).2.uses_control_socket = false) ∧
    (∀ (svc svc2 : Svc) (fds : List Char), svc_set_fds svc fds = (true, svc2) →
        (svc2.uses_control_event = true ↔ control_event_tok ∈ splitSep tab fds) ∧
        (svc2.uses_control_cmd = true ↔ control_cmd_tok ∈ splitSep tab fds) ∧
        (svc2.uses_control_socket = true ↔ control_socket_tok ∈ splitSep tab fds)) := by
  constructor
  · intro svc hwf
    obtain ⟨l, ⟨hok, hnd⟩, hv⟩ := hwf
    by_cases hp : ∃ e ∈ l, e.1 = fds_key
    · obtain ⟨l1, w, l2, hsplit, hne⟩ := aux_exists_split fds_key l hp
      have hok1 : ∀ x ∈ l1, entryOk x := fun x hx => hok x (by simp [hsplit, hx])
      have hfind : find_entry fds_key svc.vars =
          some (encode_vars l1, w, encode_vars l2) := by
        rw [hv, hsplit]
        exact aux_find_encode_present fds_key w l1 l2 hok1
          (hok _ (by simp [hsplit])) hne
      have hdel2 : svc_set_var svc.cap svc.vars fds_key none =
          some (encode_vars l1 ++ encode_vars l2) := by
        rw [aux_delete_result, hfind]
      have hres : svc_set_fds svc fds_default =
          (true, { svc with vars := encode_vars l1 ++ encode_vars l2,
                            uses_control_event := false, uses_control_cmd := false,
                            uses_control_socket := false }) := by
        unfold svc_set_fds
        rw [if_pos rfl, hdel2]
        simp
        exact ⟨by decide, by decide, by decide⟩
      have hl2 : ∀ e ∈ l2, e.1 ≠ fds_key := by
        have hnd2 : (fds_key :: l2.map Prod.fst).Nodup := by
          have hmap : (l.map Prod.fst).Nodup := hnd
          rw [hsplit] at hmap
          simp only [List.map_append, List.map_cons] at hmap
          exact hmap.of_append_right
        intro e he hek
        exact (List.nodup_cons.mp hnd2).1 (hek ▸ List.mem_map_of_mem Prod.fst he)
      have habs2 : find_entry fds_key (encode_vars l1 ++ encode_vars l2) = none := by
        rw [← aux_encode_append]
        refine aux_find_encode_absent fds_key (l1 ++ l2) ?_ ?_
        · intro x hx
          rcases List.mem_append.1 hx with hx | hx
          · exact hok1 x hx
          · exact hok x (by simp [hsplit, hx])
        · intro x hx
          rcases List.mem_append.1 hx with hx | hx
          · exact hne x hx
          · exact hl2 x hx
      have hlen : (encode_vars l1 ++ encode_vars l2).length < svc.vars.length := by
        rw [hv, hsplit, aux_encode_append]
        simp only [encode_vars, List.length_append, List.length_cons]
        omega
      rw [hres]
      refine ⟨rfl, ?_, by simpa using le_of_lt hlen, fun _ => by simpa using hlen,
        rfl, rfl, rfl⟩
      show svc_get_var (encode_vars l1 ++ encode_vars l2) fds_key = none
      rw [svc_get_var, habs2]
      rfl
    · push_neg at hp
      have hfind : find_entry fds_key svc.vars = none := by
        rw [hv]
        exact aux_find_encode_absent fds_key l hok hp
      have hget : svc_get_var svc.vars fds_key = none := by
        rw [svc_get_var, hfind]
        rfl
      have hdel2 : svc_set_var svc.cap svc.vars fds_key none = some svc.vars := by
        rw [aux_delete_result, hfind]
      have hres : svc_set_fds svc fds_default =
          (true, { svc with vars := svc.vars,
                            uses_control_event := false, uses_control_cmd := false,
                            uses_control_socket := false }) := by
        unfold svc_set_fds
        rw [if_pos rfl, hdel2]
        simp
        exact ⟨by decide, by decide, by decide⟩
      rw [hres]
      refine ⟨rfl, hget, le_refl _, ?_, rfl, rfl, rfl⟩
      rw [hget]
      simp
  · intro svc svc2 fds h
    simp only [svc_set_fds] at h
    split_ifs at h with hd
    · rw [aux_delete_result] at h
      rcases hf : find_entry fds_key svc.vars with _ | r <;> rw [hf] at h <;>
        simp only [Prod.mk.injEq, true_and] at h <;> subst h <;> simp
    · rcases hsv : svc_set_var svc.cap svc.vars fds_key (some fds) with _ | b <;>
        rw [hsv] at h
      · simp at h
      · simp only [Prod.mk.injEq, true_and] at h
        subst h
        simp

/-- C6 witness: clearing `fds` on a record whose buffer holds a single
`fds` entry, and flag recomputation on a list containing `control.event`. -/
theorem C6_set_fds_flags_witness :
    (vars_wf ex_fds_svc.vars ∧
     ((svc_set_fds ex_fds_svc fds_default).1 = true ∧
      svc_get_var (svc_set_fds ex_fds_svc fds_default).2.vars fds_key = none ∧
      (svc_set_fds ex_fds_svc fds_default).2.vars.length ≤ ex_fds_svc.vars.length ∧
      ((svc_get_var ex_fds_svc.vars fds_key).isSome = true →
        (svc_set_fds ex_fds_svc fds_default).2.vars.length < ex_fds_svc.vars.length) ∧
      (svc_set_fds ex_fds_svc fds_default).2.uses_control_event = false ∧
      (svc_set_fds ex_fds_svc fds_default).2.uses_control_cmd = false ∧
      (svc_set_fds ex_fds_svc fds_default).2.uses_control_socket = false)) ∧
    (svc_set_fds ex_down "a\tcontrol.event".toList =
        (true, (svc_set_fds ex_down "a\tcontrol.event".toList).2) ∧
     (((svc_set_fds ex_down "a\tcontrol.event".toList).2.uses_control_event = true ↔
        control_event_tok ∈ splitSep tab "a\tcontrol.event".toList) ∧
      ((svc_set_fds ex_down "a\tcontrol.event".toList).2.uses_control_cmd = true ↔
        control_cmd_tok ∈ splitSep tab "a\tcontrol.event".toList) ∧
      ((svc_set_fds ex_down "a\tcontrol.event".toList).2.uses_control_socket = true ↔
        control_socket_tok ∈ splitSep tab "a\tcontrol.event".toList))) :=
  ⟨⟨⟨[(fds_key, 'x' :: [])], ⟨by simp [entryOk, nul, fds_key], by simp⟩, by decide⟩,
    C6_set_fds_flags.1 ex_fds_svc
      ⟨[(fds_key, 'x' :: [])], ⟨by simp [entryOk, nul, fds_key], by simp⟩, by decide⟩⟩,
   ⟨by decide,
    C6_set_fds_flags.2 ex_down (svc_set_fds ex_down "a\tcontrol.event".toList).2
      "a\tcontrol.event".toList (by decide)⟩⟩

theorem aux_char_toNat_inj (a b : Char) (h : a.toNat = b.toNat) : a = b := by
  have h1 := Char.ofNat_toNat a
  have h2 := Char.ofNat_toNat b
  rw [← h1, ← h2, h]

theorem aux_cmp_self (a : List Char) : strseg_cmp a a = 0 := by
  induction a with
  | nil => rfl
  | cons x xs ih => simp [strseg_cmp, ih]

theorem aux_cmp_eq_zero (a b : List Char) (h : strseg_cmp a b = 0) : a = b := by
  induction a generalizing b with
  | nil =>
    cases b with
    | nil => rfl
    | cons y ys => simp [strseg_cmp] at h
  | cons x xs ih =>
    cases b with
    | nil => simp [strseg_cmp] at h
    | cons y ys =>
      simp only [strseg_cmp] at h
      split_ifs at h with h1 h2
      · exact absurd h (by omega)
      · have hxy : x = y := aux_char_toNat_inj x y (by omega)
        rw [hxy, ih ys h]

theorem aux_cmp_swap (a b : List Char) : strseg_cmp b a = - strseg_cmp a b := by
  induction a generalizing b with
  | nil =>
    cases b with
    | nil => simp [strseg_cmp]
    | cons y ys => simp [strseg_cmp]
  | cons x xs ih =>
    cases b with
    | nil => simp [strseg_cmp]
    | cons y ys =>
      simp only [strseg_cmp]
      split_ifs with h1 h2 h3 <;> first
        | omega
        | exact ih ys

theorem aux_cmp_trans (a b c : List Char) (h1 : strseg_cmp a b < 0)
    (h2 : strseg_cmp b c < 0) : strseg_cmp a c < 0 := by
  induction a generalizing b c with
  | nil =>
    cases b with
    | nil => simp [strseg_cmp] at h1
    | cons y ys =>
      cases c with
      | nil => simp [strseg_cmp] at h2
      | cons z zs => simp [strseg_cmp]
  | cons x xs ih =>
    cases b with
    | nil => simp [strseg_cmp] at h1
    | cons y ys =>
      cases c with
      | nil => simp [strseg_cmp] at h2
      | cons z zs =>
        simp only [strseg_cmp] at h1 h2 ⊢
        have hxy : x.toNat < y.toNat ∨ (x.toNat = y.toNat ∧ strseg_cmp xs ys < 0) := by
          by_cases e1 : x.toNat < y.toNat
          · exact Or.inl e1
          · rw [if_neg e1] at h1
            by_cases e2 : y.toNat < x.toNat
            · rw [if_pos e2] at h1
              omega
            · rw [if_neg e2] at h1
              exact Or.inr ⟨by omega, h1⟩
        have hyz : y.toNat < z.toNat ∨ (y.toNat = z.toNat ∧ strseg_cmp ys zs < 0) := by
          by_cases e1 : y.toNat < z.toNat
          · exact Or.inl e1
          · rw [if_neg e1] at h2
            by_cases e2 : z.toNat < y.toNat
            · rw [if_pos e2] at h2
              omega
            · rw [if_neg e2] at h2
              exact Or.inr ⟨by omega, h2⟩
        rcases hxy with e | ⟨exy, hxs⟩ <;> rcases hyz with f | ⟨eyz, hys⟩
        · rw [if_pos (show x.toNat < z.toNat by omega)]
          omega
        · rw [if_pos (show x.toNat < z.toNat by omega)]
          omega
        · rw [if_pos (show x.toNat < z.toNat by omega)]
          omega
        · rw [if_neg (show ¬ x.toNat < z.toNat by omega),
            if_neg (show ¬ z.toNat < x.toNat by omega)]
          exact ih ys zs hxs hys

theorem aux_sorted_tail (a : List Char) (t : List (List Char))
    (h : names_sorted (a :: t) = true) : names_sorted t = true := by
  cases t with
  | nil => rfl
  | cons b rest =>
    simp only [names_sorted, Bool.and_eq_true] at h
    exact h.2

theorem aux_sorted_head_lt (a : List Char) (t : List (List Char))
    (h : names_sorted (a :: t) = true) : ∀ n ∈ t, strseg_cmp a n < 0 := by
  induction t generalizing a with
  | nil => intro n hn; simp at hn
  | cons b rest ih =>
    have hab : strseg_cmp a b < 0 := by
      simp only [names_sorted, Bool.and_eq_true, decide_eq_true_eq] at h
      exact h.1
    intro n hn
    rcases List.mem_cons.1 hn with hn | hn
    · exact hn ▸ hab
    · exact aux_cmp_trans a b n hab (ih b (aux_sorted_tail a (b :: rest) h) n hn)

theorem aux_rbfind_ne_none (q x : List Char) (t : List (List Char)) :
    rbfind (x :: t) q ≠ none := by
  simp only [rbfind]
  split_ifs <;> simp
  cases rbfind t q with
  | none => simp
  | some r => cases r; simp

theorem aux_find_head (p : List Char → Bool) (t : List (List Char))
    (hall : ∀ n ∈ t, p n = true) : t.find? p = t.head? := by
  cases t with
  | nil => rfl
  | cons b rest => rw [List.find?_cons_of_pos _ (hall b (List.mem_cons_self b rest))]; rfl

/-- C7: on a strictly ascending name index, `svc_iter_next` applied to a
record returns the first name greater than the record's own (none at the
last record), and applied to a starting name it returns the successor when
the exact name exists and the first greater name (lower bound) otherwise —
in both cases exactly `find?` of the first strictly greater name. -/
theorem C7_iter_next (names : List (List Char)) (hs : names_sorted names = true) :
    (∀ r ∈ names, ∀ q : List Char, svc_iter_next names (some r) q =
       names.find? (fun n => decide (strseg_cmp r n < 0))) ∧
    (∀ q : List Char, svc_iter_next names none q =
       names.find? (fun n => decide (strseg_cmp q n < 0))) := by
  induction names with
  | nil => exact ⟨fun r hr => absurd hr (List.not_mem_nil r), fun q => rfl⟩
  | cons a t ih =>
    obtain ⟨ihA, ihB⟩ := ih (aux_sorted_tail a t hs)
    have hhead : ∀ r, r = a → (a :: t).find? (fun n => decide (strseg_cmp r n < 0)) =
        t.head? := by
      intro r hr
      subst hr
      rw [List.find?_cons_of_neg _ (by simp [aux_cmp_self])]
      exact aux_find_head _ t (fun n hn => by
        simp only [decide_eq_true_eq]
        exact aux_sorted_head_lt r t hs n hn)
    constructor
    · intro r hr q
      by_cases hra : a = r
      · subst hra
        simp only [svc_iter_next, idx_of, if_pos rfl]
        rw [hhead a rfl]
        cases t <;> rfl
      · have hrt : r ∈ t := by
          rcases List.mem_cons.1 hr with h | h
          · exact absurd h.symm hra
          · exact h
        have hlt : strseg_cmp a r < 0 := aux_sorted_head_lt a t hs r hrt
        have hgt : ¬ (strseg_cmp r a < 0) := by
          rw [aux_cmp_swap a r]
          omega
        have hA := ihA r hrt q
        simp only [svc_iter_next, idx_of, if_neg hra] at hA ⊢
        rw [List.find?_cons_of_neg _ (by simpa using hgt), ← hA]
        cases idx_of t r with
        | none => rfl
        | some i => simp [List.get?_cons_succ]
    · intro q
      simp only [svc_iter_next, rbfind]
      rcases lt_trichotomy (strseg_cmp q a) 0 with hc | hc | hc
      · rw [if_pos (le_of_lt hc), if_neg (by omega)]
        simp only [show ((-1 : Int) < 0) = True by simp, if_pos]
        rw [List.find?_cons_of_pos _ (by simpa using hc)]
        rfl
      · have hqa : q = a := aux_cmp_eq_zero q a hc
        rw [if_pos (le_of_eq hc), if_pos hc]
        simp only [lt_irrefl, if_neg (lt_irrefl (0 : Int))]
        rw [hhead q hqa]
        cases t <;> rfl
      · rw [if_neg (by omega)]
        have hB := ihB q
        rw [List.find?_cons_of_neg _ (by simp; omega), ← hB]
        cases t with
        | nil => rfl
        | cons b rest =>
          cases hrb : rbfind (b :: rest) q with
          | none => exact absurd hrb (aux_rbfind_ne_none q b rest)
          | some r =>
            obtain ⟨rel, i⟩ := r
            simp only [svc_iter_next, hrb]
            split_ifs <;> simp [List.get?_cons_succ]

/-- C7 witness: with records `a`, `c`, `e`, iterating from the name `b`
yields `c`, and iterating from the record `c` yields `e`. -/
theorem C7_iter_next_witness :
    names_sorted ["a".toList, "c".toList, "e".toList] = true ∧
    "c".toList ∈ (["a".toList, "c".toList, "e".toList] : List (List Char)) ∧
    svc_iter_next ["a".toList, "c".toList, "e".toList] (some "c".toList) [] =
      (["a".toList, "c".toList, "e".toList] : List (List Char)).find?
        (fun n => decide (strseg_cmp "c".toList n < 0)) ∧
    svc_iter_next ["a".toList, "c".toList, "e".toList] none "b".toList =
      (["a".toList, "c".toList, "e".toList] : List (List Char)).find?
        (fun n => decide (strseg_cmp "b".toList n < 0)) :=
  ⟨by decide, by decide,
   (C7_iter_next ["a".toList, "c".toList, "e".toList] (by decide)).1
     "c".toList (by decide) [],
   (C7_iter_next ["a".toList, "c".toList, "e".toList] (by decide)).2 "b".toList⟩

theorem aux_change_pid_inv (x : Svc) (p : Int) (hx : svc_pid_inv x) :
    (svc_change_pid x p).name = x.name ∧
    (svc_change_pid x p).in_name_index = x.in_name_index ∧
    svc_pid_inv (svc_change_pid x p) := by
  unfold svc_change_pid svc_pid_inv at *
  split_ifs <;> simp_all

theorem aux_hs_pid_inv (x : Svc) (w : Wake) (t : Int) (hx : svc_pid_inv x) :
    svc_pid_inv (svc_handle_start x w t).2.1 := by
  unfold svc_handle_start svc_change_pid svc_set_active svc_pid_inv at *
  by_cases hp : x.pid = 0 <;> split_ifs <;> simp_all

theorem aux_reaped_inv (x : Svc) (w : Wake) (ws : Int) (hx : svc_pid_inv x) :
    (svc_handle_reaped x w ws).1.name = x.name ∧
    (svc_handle_reaped x w ws).1.in_name_index = x.in_name_index ∧
    svc_pid_inv (svc_handle_reaped x w ws).1 := by
  unfold svc_handle_reaped svc_pid_inv at *
  split_ifs <;> simp_all

theorem aux_run_go_inv (n : Nat) (x : Svc) (w : Wake) (a : Bool) (p : Int) (m fk : Bool)
    (hx : svc_pid_inv x) :
    (svc_run_go n x w a p m fk).svc.name = x.name ∧
    (svc_run_go n x w a p m fk).svc.in_name_index = x.in_name_index ∧
    svc_pid_inv (svc_run_go n x w a p m fk).svc := by
  induction n generalizing x w fk with
  | zero => exact ⟨rfl, rfl, hx⟩
  | succ n ih =>
    cases hst : x.state with
    | undef =>
      simp only [svc_run_go, hst]
      refine ⟨?_, ?_, ?_⟩ <;> trivial
    | down =>
      simp only [svc_run_go, hst, svc_set_active]
      refine ⟨?_, ?_, ?_⟩ <;> trivial
    | up =>
      simp only [svc_run_go, hst, svc_set_active]
      refine ⟨?_, ?_, ?_⟩ <;> trivial
    | start =>
      simp only [svc_run_go, hst]
      by_cases h1 : x.start_time - w.now > 0
      · rw [if_pos h1]
        exact ⟨by simp [svc_set_active], by simp [svc_set_active], hx⟩
      · rw [if_neg h1]
        cases a with
        | true =>
          rw [if_pos rfl]
          have hcp := aux_change_pid_inv x p hx
          exact ⟨hcp.1, hcp.2.1, hcp.2.2⟩
        | false =>
          rw [if_neg (by decide : ¬ (false = true))]
          have hpres := aux_handle_start_pres x w (w.now + FORK_RETRY_DELAY)
          have hpid := aux_hs_pid_inv x w (w.now + FORK_RETRY_DELAY) hx
          have hrec := ih (svc_handle_start x w (w.now + FORK_RETRY_DELAY)).2.1
            (svc_handle_start x w (w.now + FORK_RETRY_DELAY)).2.2 true hpid
          refine ⟨?_, ?_, hrec.2.2⟩
          · rw [hrec.1, hpres.2.2.2.2.1]
          · rw [hrec.2.1, hpres.2.2.2.2.2.1]
    | reaped =>
      simp only [svc_run_go, hst]
      split_ifs with h1 h2
      · have hx1 : svc_pid_inv { x with state := SvcState.down } := hx
        have hpres := aux_handle_start_pres { x with state := SvcState.down } w
          (w.now + x.restart_interval)
        have hpid := aux_hs_pid_inv { x with state := SvcState.down } w
          (w.now + x.restart_interval) hx1
        have hrec := ih
          (svc_handle_start { x with state := SvcState.down } w
            (w.now + x.restart_interval)).2.1
          (svc_handle_start { x with state := SvcState.down } w
            (w.now + x.restart_interval)).2.2 fk hpid
        refine ⟨?_, ?_, hrec.2.2⟩
        · rw [hrec.1, hpres.2.2.2.2.1]
        · rw [hrec.2.1, hpres.2.2.2.2.2.1]
      · have hx1 : svc_pid_inv { x with state := SvcState.down } := hx
        have hpres := aux_handle_start_pres { x with state := SvcState.down } w w.now
        have hpid := aux_hs_pid_inv { x with state := SvcState.down } w w.now hx1
        have hrec := ih
          (svc_handle_start { x with state := SvcState.down } w w.now).2.1
          (svc_handle_start { x with state := SvcState.down } w w.now).2.2 fk hpid
        refine ⟨?_, ?_, hrec.2.2⟩
        · rw [hrec.1, hpres.2.2.2.2.1]
        · rw [hrec.2.1, hpres.2.2.2.2.2.1]
      · have hx1 : svc_pid_inv { x with state := SvcState.down } := hx
        have hrec := ih { x with state := SvcState.down } w fk hx1
        exact ⟨hrec.1, hrec.2.1, hrec.2.2⟩

theorem aux_gs_upd_inv (gs : GState) (n : List Char) (f : Svc → Wake → Svc × Wake)
    (h : gs_inv gs)
    (hf : ∀ (r : Svc) (w : Wake), svc_pid_inv r →
      (f r w).1.name = r.name ∧ (f r w).1.in_name_index = r.in_name_index ∧
        svc_pid_inv (f r w).1) :
    gs_inv (gs_upd gs n f) := by
  unfold gs_upd
  cases hfind : gs.records.find? (fun r => decide (r.name = n)) with
  | none => exact h
  | some r =>
    have hrmem : r ∈ gs.records := List.mem_of_find?_eq_some hfind
    have hrn : r.name = n := by
      have := List.find?_some hfind
      simpa using this
    have hr := h.1 r hrmem
    have hfr := hf r gs.wake hr.2
    constructor
    · intro q hq
      rcases List.mem_map.1 hq with ⟨q0, hq0, hq0e⟩
      by_cases hqn : q0.name = n
      · rw [if_pos hqn] at hq0e
        subst hq0e
        exact ⟨by rw [hfr.2.1, hr.1], hfr.2.2⟩
      · rw [if_neg hqn] at hq0e
        subst hq0e
        exact h.1 q0 hq0
    · have hmap : (gs.records.map (fun q => if q.name = n then (f r gs.wake).1 else q)).map
          Svc.name = gs.records.map Svc.name := by
        rw [List.map_map]
        refine List.map_congr_left ?_
        intro q hq
        by_cases hqn : q.name = n
        · simp only [Function.comp, if_pos hqn]
          rw [hfr.1, hrn, hqn]
        · simp only [Function.comp, if_neg hqn]
      rw [hmap]
      exact h.2

theorem aux_apply_op_inv (gs : GState) (op : Op) (h : gs_inv gs) :
    gs_inv (apply_op gs op) := by
  cases op with
  | create n =>
    simp only [apply_op]
    cases hfind : gs.records.find? (fun r => decide (r.name = n)) with
    | some r => exact h
    | none =>
      split_ifs with hc
      · constructor
        · intro q hq
          rcases List.mem_append.1 hq with hq | hq
          · exact h.1 q hq
          · rcases List.mem_singleton.1 hq with rfl
            refine ⟨rfl, ?_⟩
            unfold svc_pid_inv svc_ctor
            simp
        · have habs : n ∉ gs.records.map Svc.name := by
            intro hmem
            rcases List.mem_map.1 hmem with ⟨q, hq, hqn⟩
            have := List.find?_eq_none.1 hfind q hq
            simp [hqn] at this
          simp only [List.map_append, List.map_cons, List.map_nil]
          rw [List.nodup_append]
          refine ⟨h.2, List.nodup_singleton _, ?_⟩
          intro a ha hmem
          have han : a = n := by simpa [svc_ctor] using hmem
          exact habs (han ▸ ha)
      · exact h
  | del n =>
    have hsub : List.Sublist (gs.records.eraseP (fun r => decide (r.name = n)))
        gs.records := List.eraseP_sublist _
    constructor
    · intro q hq
      exact h.1 q (hsub.mem hq)
    · exact h.2.sublist (hsub.map Svc.name)
  | start n t =>
    exact aux_gs_upd_inv gs n _ h (fun r w hr =>
      ⟨(aux_handle_start_pres r w t).2.2.2.2.1, (aux_handle_start_pres r w t).2.2.2.2.2.1,
       aux_hs_pid_inv r w t hr⟩)
  | reaped n ws =>
    exact aux_gs_upd_inv gs n _ h (fun r w hr => aux_reaped_inv r w ws hr)
  | changePid n p =>
    exact aux_gs_upd_inv gs n _ h (fun r w hr => aux_change_pid_inv r p hr)
  | tick n fok fpid sm =>
    exact aux_gs_upd_inv gs n _ h (fun r w hr => aux_run_go_inv 4 r w fok fpid sm false hr)

/-- C9: starting from the empty core, after any sequence of create, delete,
start, reap-handling, pid-change and state-machine-tick operations, every
live record owns its single name-index node (and no two live records share
a name) and owns a pid-index node exactly when its pid is nonzero. -/
theorem C9_index_invariant (ops : List Op) : gs_inv (ops.foldl apply_op init_gstate) := by
  have hinit : gs_inv init_gstate :=
    ⟨fun r hr => absurd hr (List.not_mem_nil r), by simp [init_gstate]⟩
  suffices hgen : ∀ gs, gs_inv gs → gs_inv (ops.foldl apply_op gs) from hgen _ hinit
  induction ops with
  | nil => exact fun gs hg => hg
  | cons op rest ih => exact fun gs hg => ih _ (aux_apply_op_inv gs op hg)

/-- C10: when the tab-separated triggers string contains an empty token,
parsing stops there: the tokens before it (all nonempty and valid, parsed
to `pr = (autostart, signal set, enable)`) alone determine `auto_restart`
and `autostart_signals`, the tokens after it are neither validated nor
added — the call succeeds for an arbitrary tail — and yet the entire
string is stored and `get_triggers` returns it verbatim.  Stated for a
heap-backed record (the store step cannot hit a pool limit) with a
well-formed NUL-free buffer. -/
theorem C10_triggers_empty_token (svc : Svc) (wake : Wake) (tsv : List Char)
    (good rest : List (List Char)) (m : Bool) (pr : Bool × List Int × Bool)
    (hsplit : splitSep tab tsv = good ++ [] :: rest)
    (hgood : ∀ t ∈ good, t ≠ [])
    (hparse : parse_triggers good false [] false = some pr)
    (hwf : vars_wf svc.vars) (hnul : nul ∉ tsv) (h0 : tsv ≠ [])
    (hcap : svc.cap = none) :
    (svc_set_triggers svc wake tsv m).1 = true ∧
    (svc_set_triggers svc wake tsv m).2.1.auto_restart = pr.1 ∧
    (svc_set_triggers svc wake tsv m).2.1.autostart_signals = pr.2.1 ∧
    svc_get_triggers (svc_set_triggers svc wake tsv m).2.1 = tsv := by
  obtain ⟨a, s, e⟩ := pr
  have hstop := aux_parse_triggers_stop good rest false [] false hgood
  have hlen : ¬ (tsv.length ≤ 0) := by
    cases tsv with
    | nil => exact absurd rfl h0
    | cons c cs => simp
  have hkey : key_valid triggers_key := ⟨by decide, by decide, by decide⟩
  have hsome := aux_set_var_heap_some svc.vars triggers_key tsv
  have hres : svc_set_triggers svc wake tsv m =
      (let s2 := svc_set_sigwake
          { svc with vars := (svc_set_var none svc.vars triggers_key (some tsv)).getD [],
                     auto_restart := a, autostart_signals := s } e
       if s2.auto_restart || svc_check_sigwake s2 m then
         (true, (svc_handle_start s2 wake wake.now).2.1, (svc_handle_start s2 wake wake.now).2.2)
       else (true, s2, wake)) := by
    unfold svc_set_triggers
    rw [hsplit, hstop, hparse, hcap, if_neg hlen, hsome]
    rfl
  have hget : svc_get_var ((svc_set_var none svc.vars triggers_key (some tsv)).getD [])
      triggers_key = some tsv := by
    refine aux_set_then_get none svc.vars triggers_key tsv _ hwf hkey hnul ?_
    rw [hsome]
    rfl
  rw [hres]
  simp only []
  split_ifs with hc
  · have hpres := aux_handle_start_pres (svc_set_sigwake
      { svc with vars := (svc_set_var none svc.vars triggers_key (some tsv)).getD [],
                 auto_restart := a, autostart_signals := s } e) wake wake.now
    refine ⟨rfl, ?_, ?_, ?_⟩
    · rw [hpres.1]
      rfl
    · rw [hpres.2.1]
      rfl
    · rw [svc_get_triggers, hpres.2.2.1]
      show (svc_get_var ((svc_set_var none svc.vars triggers_key (some tsv)).getD [])
        triggers_key).getD [] = tsv
      rw [hget]
      rfl
  · refine ⟨rfl, rfl, rfl, ?_⟩
    rw [svc_get_triggers]
    show (svc_get_var ((svc_set_var none svc.vars triggers_key (some tsv)).getD [])
      triggers_key).getD [] = tsv
    rw [hget]
    rfl

/-- C10 witness: the string `SIGHUP TAB TAB bogus` parses only up to the
empty token, succeeds despite the invalid tail, and is stored verbatim. -/
theorem C10_triggers_empty_token_witness :
    (splitSep tab "SIGHUP\t\tbogus".toList =
       ["SIGHUP".toList] ++ [] :: ["bogus".toList] ∧
     parse_triggers ["SIGHUP".toList] false [] false = some (false, [1], true) ∧
     nul ∉ "SIGHUP\t\tbogus".toList ∧ "SIGHUP\t\tbogus".toList ≠ [] ∧
     ex_down.cap = none) ∧
    ((svc_set_triggers ex_down ex_wake "SIGHUP\t\tbogus".toList false).1 = true ∧
     (svc_set_triggers ex_down ex_wake "SIGHUP\t\tbogus".toList false).2.1.auto_restart =
       false ∧
     (svc_set_triggers ex_down ex_wake "SIGHUP\t\tbogus".toList false).2.1.autostart_signals =
       [1] ∧
     svc_get_triggers (svc_set_triggers ex_down ex_wake "SIGHUP\t\tbogus".toList false).2.1 =
       "SIGHUP\t\tbogus".toList) :=
  ⟨⟨by decide, by decide, by decide, by decide, rfl⟩,
   C10_triggers_empty_token ex_down ex_wake "SIGHUP\t\tbogus".toList
     ["SIGHUP".toList] ["bogus".toList] false (false, [1], true)
     (by decide) (by decide) (by decide)
     ⟨[], ⟨fun x hx => absurd hx (List.not_mem_nil x), by simp⟩, rfl⟩
     (by decide) (by decide) rfl⟩

end Daemonproxy
